import Mathlib

/-!
Shallow embedding of `othello.py` (an interactive Othello/Reversi rules
engine and game loop) together with proofs about its behaviour.

Conventions of the embedding:
* a Python `Optional[Color]` cell is `Option Color` (`none` = empty cell);
* the board (a Python list of 8 lists of length 8) is a function
  `Nat → Nat → Option Color`, read and written only at indices produced by
  Python's list-indexing rule, which is modelled by `pyIdx` (nonnegative
  indices below 8 resolve directly, indices in `[-8, -1]` wrap around,
  anything else raises `IndexError`);
* Python `int` coordinates are `Int`;
* the possibly non-terminating recursions / while loops of the source
  (`is_flippable_line`, `flip_line`) are modelled with an explicit fuel
  argument, set to `SIZE = 8` at the top level exactly as the board bound
  makes sufficient (proved below);
* exceptions are `Except` / `Option` results;
* the `play_game` loop is modelled as a step function on a game state, with
  two pieces of ghost instrumentation that do not influence control flow:
  `moves` counts successfully applied moves and `result` records the
  winner string printed on the two-skip termination path.
-/

namespace Othello

/-- `class Color(enum.Enum)` with members `BLACK = "B"`, `WHITE = "W"`. -/
inductive Color where
  | BLACK
  | WHITE
deriving DecidableEq, Repr

/-- The inline conditional `Color.BLACK if color == Color.WHITE else Color.WHITE`
used by `find_adjacent` (and, with the roles swapped, by the turn switch). -/
def Color.opposite : Color → Color
  | .BLACK => .WHITE
  | .WHITE => .BLACK

/-- `SIZE = 8`. -/
def SIZE : Nat := 8

/-- An 8×8 board: the cell at row `r`, column `c` (both in `[0,7]`) is
`board r c`. Values at indices outside `[0,7]` are irrelevant: every access
of the source goes through a bounds check or through `pyIdx`. -/
abbrev Board := Nat → Nat → Option Color

/-- Python list indexing into a list of length 8: `i` in `[0,7]` resolves
directly, `i` in `[-8,-1]` wraps around to `i + 8`, and anything else
raises `IndexError` (modelled as `none`). -/
def pyIdx (i : Int) : Option Nat :=
  if 0 ≤ i ∧ i < 8 then some i.toNat
  else if -8 ≤ i ∧ i < 0 then some (i + 8).toNat
  else none

/-- In-place cell assignment `board[r][c] = v` (at already-resolved
nonnegative indices). -/
def upd (board : Board) (r c : Nat) (v : Option Color) : Board :=
  fun i j => if i = r ∧ j = c then v else board i j

/-- `class CoordinateParseError(Exception)`; the payload is the message. -/
structure CoordinateParseError where
  message : String
deriving DecidableEq, Repr

/-- Python `ord`-level model of `str.lower()` applied to one character:
ASCII uppercase code points are shifted into lowercase, everything else is
unchanged. (The source only ever distinguishes ASCII ranges afterwards.) -/
def lowerOrd (n : Nat) : Nat :=
  if 65 ≤ n ∧ n ≤ 90 then n + 32 else n

/-- `parse_coordinate(str)` from `othello.py`, on the string's characters:
length must be 2; then `row = ord(str[1]) - ord('1')` and
`col = ord(str[0]) - ord('a')` after lowercasing, each checked against
`0 <= _ < SIZE`, raising `CoordinateParseError` otherwise. -/
def parse_coordinate (s : List Char) : Except CoordinateParseError (Int × Int) :=
  match s with
  | [c0, c1] =>
    let n0 : Nat := lowerOrd c0.toNat
    let n1 : Nat := lowerOrd c1.toNat
    let row : Int := (n1 : Int) - (49 : Int)
    if ¬(0 ≤ row ∧ row < 8) then .error ⟨"Row out of bounds"⟩
    else
      let col : Int := (n0 : Int) - (97 : Int)
      if ¬(0 ≤ col ∧ col < 8) then .error ⟨"Col out of bounds"⟩
      else .ok (row, col)
  | _ => .error ⟨"Input must be length 2"⟩

/-- The characters stripped from the right of a line by Python's
`str.rstrip()` (ASCII whitespace). -/
def pythonSpace : List Char := [' ', '\t', '\n', '\r', '\x0b', '\x0c']

/-- `str.rstrip()`. -/
def rstrip (s : List Char) : List Char :=
  (s.reverse.dropWhile (fun c => c ∈ pythonSpace)).reverse

/-- The row-major enumeration of all 64 board coordinates, as produced by
the nested `for row in range(SIZE): for col in range(SIZE)` loops. -/
def cellList : List (Nat × Nat) :=
  (List.range 8).flatMap (fun row => (List.range 8).map (fun col => (row, col)))

/-- The `black_count` accumulated by `count_tokens_and_determine_winner`. -/
def black_count (board : Board) : Nat :=
  cellList.countP (fun p => board p.1 p.2 = some Color.BLACK)

/-- The `white_count` accumulated by `count_tokens_and_determine_winner`. -/
def white_count (board : Board) : Nat :=
  cellList.countP (fun p => board p.1 p.2 = some Color.WHITE)

/-- `count_tokens_and_determine_winner(board)` from `othello.py`. -/
def count_tokens_and_determine_winner (board : Board) : String :=
  if black_count board > white_count board then "Black wins!"
  else if white_count board > black_count board then "White wins!"
  else "It's a tie!"

/-- The list of the 8 neighbour coordinates built by `find_adjacent`. -/
def adjacents (move : Int × Int) : List (Int × Int) :=
  [ (move.1 + 1, move.2), (move.1 - 1, move.2),
    (move.1, move.2 + 1), (move.1, move.2 - 1),
    (move.1 + 1, move.2 + 1), (move.1 + 1, move.2 - 1),
    (move.1 - 1, move.2 + 1), (move.1 - 1, move.2 - 1) ]

/-- `find_adjacent(board, move, color)` from `othello.py`: scans the 8
neighbours for a disc of the opposite color; a raised `IndexError` skips the
neighbour, and Python's negative-index wrap-around is preserved by `pyIdx`. -/
def find_adjacent (board : Board) (move : Int × Int) (color : Color) : Bool :=
  (adjacents move).any (fun adj =>
    match pyIdx adj.1, pyIdx adj.2 with
    | some r, some c => board r c = some color.opposite
    | _, _ => false)

/-- The recursion of `is_flippable_line(board, move, color, direction,
found_opponent)` with an explicit fuel argument standing for the call depth
Python would actually use; each level steps one `direction` away from
`move`, returns `False` on leaving the board or on an empty cell, returns
`found_opponent` on the mover's color, and otherwise recurses with
`found_opponent = True`. -/
def is_flippable_lineF (board : Board) (color : Color) (direction : Int × Int) :
    Nat → (Int × Int) → Bool → Bool
  | 0, _, _ => false
  | fuel + 1, move, found_opponent =>
    let row := move.1 + direction.1
    let col := move.2 + direction.2
    if ¬(0 ≤ row ∧ row < 8 ∧ 0 ≤ col ∧ col < 8) then false
    else
      match board row.toNat col.toNat with
      | none => false
      | some cell =>
        if cell = color then found_opponent
        else is_flippable_lineF board color direction fuel (row, col) true

/-- `is_flippable_line` at the fuel `SIZE = 8`, which is proved sufficient
for the unit directions the program uses. -/
def is_flippable_line (board : Board) (move : Int × Int) (color : Color)
    (direction : Int × Int) (found_opponent : Bool) : Bool :=
  is_flippable_lineF board color direction SIZE move found_opponent

/-- The `directions` list appearing in `valid_move` and `do_flip`. -/
def directions : List (Int × Int) :=
  [(1, 0), (-1, 0), (0, 1), (0, -1), (1, 1), (1, -1), (-1, 1), (-1, -1)]

/-- `valid_move(board, color, move)` from `othello.py`: bounds check, empty
check, the `find_adjacent` pre-check, then a scan of the 8 directions with
`is_flippable_line` (called with its default `found_opponent=False`). -/
def valid_move (board : Board) (color : Color) (move : Int × Int) : Bool :=
  if ¬(0 ≤ move.1 ∧ move.1 < 8 ∧ 0 ≤ move.2 ∧ move.2 < 8) then false
  else if (board move.1.toNat move.2.toNat).isSome then false
  else if ¬ find_adjacent board move color then false
  else directions.any (fun direction => is_flippable_line board move color direction false)

/-- `valid_move` with the `find_adjacent` pre-check deleted; used to settle
the claim that the pre-check is redundant. -/
def valid_move_noadj (board : Board) (color : Color) (move : Int × Int) : Bool :=
  if ¬(0 ≤ move.1 ∧ move.1 < 8 ∧ 0 ≤ move.2 ∧ move.2 < 8) then false
  else if (board move.1.toNat move.2.toNat).isSome then false
  else directions.any (fun direction => is_flippable_line board move color direction false)

/-- `no_valid_moves(board, color)` from `othello.py`: true iff no cell of
the 8×8 grid passes `valid_move`. -/
def no_valid_moves (board : Board) (color : Color) : Bool :=
  ! cellList.any (fun p => valid_move board color ((p.1 : Int), (p.2 : Int)))

/-- The `while board[row][col] != color` loop of `flip_line` with an
explicit fuel argument; each level resolves the indices with Python's list
indexing rule (`pyIdx`: wrap-around for negative indices, `IndexError` —
modelled as `none` — beyond the end), stops on the mover's color, and
otherwise assigns the mover's color and advances. -/
def flip_lineF (color : Color) (direction : Int × Int) :
    Nat → Board → (Int × Int) → Option Board
  | 0, _, _ => none
  | fuel + 1, board, move =>
    let row := move.1 + direction.1
    let col := move.2 + direction.2
    match pyIdx row, pyIdx col with
    | some r, some c =>
      if board r c = some color then some board
      else flip_lineF color direction fuel (upd board r c (some color)) (row, col)
    | _, _ => none

/-- `flip_line` at fuel `SIZE = 8` (proved sufficient whenever
`is_flippable_line` holds). -/
def flip_line (board : Board) (move : Int × Int) (color : Color)
    (direction : Int × Int) : Option Board :=
  flip_lineF color direction SIZE board move

/-- A variant of `flip_lineF` that fails instead of following Python's
negative-index wrap-around: success of this variant certifies that every
`board[row][col]` access of the loop had both indices in `[0,7]`. -/
def flip_line_strictF (color : Color) (direction : Int × Int) :
    Nat → Board → (Int × Int) → Option Board
  | 0, _, _ => none
  | fuel + 1, board, move =>
    let row := move.1 + direction.1
    let col := move.2 + direction.2
    if 0 ≤ row ∧ row < 8 ∧ 0 ≤ col ∧ col < 8 then
      if board row.toNat col.toNat = some color then some board
      else flip_line_strictF color direction fuel
        (upd board row.toNat col.toNat (some color)) (row, col)
    else none

/-- The body of the `for direction in directions` loop of `do_flip`:
re-test `is_flippable_line` on the current board and run `flip_line` when
it holds (`none` propagates a failure of `flip_line`). -/
def flipStep (move : Int × Int) (color : Color) (acc : Option Board)
    (direction : Int × Int) : Option Board :=
  match acc with
  | none => none
  | some b =>
    if is_flippable_line b move color direction false then flip_line b move color direction
    else some b

/-- `do_flip(board, color, move)` from `othello.py`: for each of the 8
directions in order, re-test `is_flippable_line` on the current board and
run `flip_line` when it holds. -/
def do_flip (board : Board) (color : Color) (move : Int × Int) : Option Board :=
  directions.foldl (flipStep move color) (some board)

/-- The two statements `board[move[0]][move[1]] = turn` / `do_flip(board,
turn, move)` executed by `play_game` on a validated move. The `Option`
default is never taken when `valid_move` holds (proved below). -/
def apply_move (board : Board) (turn : Color) (move : Int × Int) : Board :=
  let placed := upd board move.1.toNat move.2.toNat (some turn)
  (do_flip placed turn move).getD placed

/-- One interaction offered to the `play_game` loop: a line of input, or
the end of input (`EOFError` / `KeyboardInterrupt`, which the source
handles identically by breaking out of the loop). -/
inductive Ev where
  | line (s : List Char)
  | stop

/-- The state of the `play_game` loop. `board`, `turn` and `skip` are the
local variables of the source; `done` records that the loop has exited.
`result` (the winner string printed on the two-skip exit path) and `moves`
(a count of successfully applied moves) are ghost instrumentation and
influence nothing. -/
structure GState where
  board : Board
  turn : Color
  skip : Nat
  done : Bool
  result : Option String
  moves : Nat

/-- One iteration of the `while True` loop of `play_game`: skip the turn
(without consuming input) when the player has no valid move, terminating
with the winner message once `skip >= 2`; otherwise `skip = 0`, then read a
line — end of input terminates the loop, a `CoordinateParseError` or a
failed `valid_move` leaves everything but `skip` unchanged, and a valid
move is applied and the turn switches. -/
def step (s : GState) (e : Ev) : GState :=
  if s.done then s
  else if no_valid_moves s.board s.turn then
    let skip := s.skip + 1
    { s with
      turn := s.turn.opposite
      skip := skip
      done := decide (2 ≤ skip)
      result := if 2 ≤ skip then some (count_tokens_and_determine_winner s.board) else s.result }
  else
    match e with
    | .stop => { s with skip := 0, done := true }
    | .line str =>
      match parse_coordinate (rstrip str) with
      | .error _ => { s with skip := 0 }
      | .ok move =>
        if valid_move s.board s.turn move then
          { s with
            board := apply_move s.board s.turn move
            turn := s.turn.opposite
            skip := 0
            moves := s.moves + 1 }
        else { s with skip := 0 }

/-- The board set up at the top of `play_game`. -/
def initial_board : Board :=
  upd (upd (upd (upd (fun _ _ => none) 3 3 (some Color.BLACK))
    3 4 (some Color.WHITE)) 4 3 (some Color.WHITE)) 4 4 (some Color.BLACK)

/-- The loop state at the top of `play_game`: the initial board, Black to
move, no skips. -/
def initState : GState :=
  { board := initial_board, turn := Color.BLACK, skip := 0, done := false
    result := none, moves := 0 }

/-- The states the `play_game` loop can reach. -/
inductive Reachable : GState → Prop where
  | init : Reachable initState
  | next (s : GState) (e : Ev) : Reachable s → Reachable (step s e)

/-- Coordinates in `[0,7] × [0,7]`. -/
def inB (p : Int × Int) : Prop :=
  0 ≤ p.1 ∧ p.1 < 8 ∧ 0 ≤ p.2 ∧ p.2 < 8

instance (p : Int × Int) : Decidable (inB p) := by unfold inB; infer_instance

/-- The cell `i` steps away from `move` in direction `d`. -/
def ray (move d : Int × Int) (i : Nat) : Int × Int :=
  (move.1 + (i : Int) * d.1, move.2 + (i : Int) * d.2)

/-- The cell of `board` at an (in-bounds) coordinate pair. -/
def cellAt (board : Board) (p : Int × Int) : Option Color :=
  board p.1.toNat p.2.toNat

/-- The resolved nonnegative index pair of an in-bounds coordinate. -/
def pt (p : Int × Int) : Nat × Nat :=
  (p.1.toNat, p.2.toNat)

/-- The line shape seen from a cell strictly inside a run: the cells at
steps `1 .. k` from `move` in direction `d` hold the opponent's color and
the cell at step `k + 1` holds the mover's color, all on the board (`k = 0`
meaning an immediate same-color neighbour). -/
def runAux (board : Board) (move : Int × Int) (color : Color) (d : Int × Int)
    (k : Nat) : Prop :=
  (∀ i, 1 ≤ i → i ≤ k →
    inB (ray move d i) ∧ cellAt board (ray move d i) = some color.opposite) ∧
  inB (ray move d (k + 1)) ∧ cellAt board (ray move d (k + 1)) = some color

/-- Specification of a flippable line, in the spec's words: walking outward
from `move` in direction `d`, the cells at steps `1 .. k` (for some
`k ≥ 1`) hold the opponent's color and the cell at step `k + 1` holds the
mover's color, all of them on the board. -/
def flipRun (board : Board) (move : Int × Int) (color : Color) (d : Int × Int)
    (k : Nat) : Prop :=
  1 ≤ k ∧ runAux board move color d k

/-- Writing the mover's color onto the cells at steps `1 .. k` from `move`
in direction `d`, in the order the `flip_line` loop performs the writes. -/
def writeRay (color : Color) (d : Int × Int) : Nat → Board → (Int × Int) → Board
  | 0, board, _ => board
  | k + 1, board, move =>
    writeRay color d k
      (upd board (move.1 + d.1).toNat (move.2 + d.2).toNat (some color))
      (move.1 + d.1, move.2 + d.2)

/-- Specification of a legal move, in the spec's words: the coordinate is
on the board, the cell there is empty, and some direction carries a
flippable line. -/
def valid_move_spec (board : Board) (color : Color) (move : Int × Int) : Prop :=
  inB move ∧ cellAt board move = none ∧
    ∃ d ∈ directions, ∃ k, flipRun board move color d k

/-- The board every cell of which holds a black disc (used as a concrete
terminal position). -/
def allBlackBoard : Board := fun _ _ => some Color.BLACK

/-- A loop state one skip away from the two-skip termination: White to
move on a full all-black board after one skipped turn. -/
def nearEndState : GState :=
  { board := allBlackBoard, turn := Color.WHITE, skip := 1, done := false
    result := none, moves := 0 }

/-! ### Basic facts: colors, indexing, rays -/

theorem Color.opposite_ne (c : Color) : c.opposite ≠ c := by
  cases c <;> simp [Color.opposite]

theorem Color.eq_opposite_of_ne {x c : Color} (h : x ≠ c) : x = c.opposite := by
  cases x <;> cases c <;> simp_all [Color.opposite]

theorem pyIdx_of_inRange {i : Int} (h0 : 0 ≤ i) (h8 : i < 8) :
    pyIdx i = some i.toNat := by
  unfold pyIdx
  rw [if_pos ⟨h0, h8⟩]

theorem upd_same (b : Board) (r c : Nat) (v : Option Color) : upd b r c v r c = v := by
  simp [upd]

theorem upd_ne (b : Board) {r c i j : Nat} (h : ¬(i = r ∧ j = c)) (v : Option Color) :
    upd b r c v i j = b i j := by
  simp only [upd]
  rw [if_neg h]

theorem ray_zero (m d : Int × Int) : ray m d 0 = m := by
  simp [ray]

theorem ray_one (m d : Int × Int) : ray m d 1 = (m.1 + d.1, m.2 + d.2) := by
  simp [ray]

theorem ray_succ (m d : Int × Int) (j : Nat) :
    ((ray m d j).1 + d.1, (ray m d j).2 + d.2) = ray m d (j + 1) := by
  simp only [ray, Prod.mk.injEq]
  constructor <;> push_cast <;> ring

theorem ray_succ_shift (m d : Int × Int) (i : Nat) :
    ray (m.1 + d.1, m.2 + d.2) d i = ray m d (i + 1) := by
  simp only [ray, Prod.mk.injEq]
  constructor <;> push_cast <;> ring

theorem pt_inj {p q : Int × Int} (hp : inB p) (hq : inB q) (h : pt p = pt q) : p = q := by
  rcases p with ⟨a, b⟩
  rcases q with ⟨x, y⟩
  unfold inB at hp hq
  simp only [pt, Prod.mk.injEq] at h ⊢
  simp only at hp hq
  omega

theorem directions_cases {d : Int × Int} (hd : d ∈ directions) :
    d = (1, 0) ∨ d = (-1, 0) ∨ d = (0, 1) ∨ d = (0, -1) ∨
    d = (1, 1) ∨ d = (1, -1) ∨ d = (-1, 1) ∨ d = (-1, -1) := by
  simpa [directions] using hd

theorem ray_inj {d : Int × Int} (hd : d ∈ directions) {m : Int × Int} {i j : Nat}
    (h : ray m d i = ray m d j) : i = j := by
  rcases directions_cases hd with rfl | rfl | rfl | rfl | rfl | rfl | rfl | rfl <;>
    simp only [ray, Prod.mk.injEq] at h <;> omega

theorem ray_ne_self {d : Int × Int} (hd : d ∈ directions) {m : Int × Int} {i : Nat}
    (hi : 1 ≤ i) : ray m d i ≠ m := by
  rcases directions_cases hd with rfl | rfl | rfl | rfl | rfl | rfl | rfl | rfl <;>
    (intro h; simp only [ray, Prod.ext_iff] at h; omega)

theorem ray_disjoint {d d' : Int × Int} (hd : d ∈ directions) (hd' : d' ∈ directions)
    (hne : d ≠ d') {m : Int × Int} {i j : Nat} (hi : 1 ≤ i) (hj : 1 ≤ j) :
    ray m d i ≠ ray m d' j := by
  rcases directions_cases hd with rfl | rfl | rfl | rfl | rfl | rfl | rfl | rfl <;>
    rcases directions_cases hd' with rfl | rfl | rfl | rfl | rfl | rfl | rfl | rfl <;>
      first
        | exact absurd rfl hne
        | (intro h; simp only [ray, Prod.mk.injEq] at h; omega)

/-! ### Characterizing `is_flippable_line` by `runAux` -/

theorem runAux_shift {b : Board} {c : Color} {d m : Int × Int} {k : Nat}
    (h : runAux b m c d (k + 1)) : runAux b (m.1 + d.1, m.2 + d.2) c d k := by
  obtain ⟨hrun, hin, hcell⟩ := h
  refine ⟨fun i hi1 hik => ?_, ?_, ?_⟩
  · rw [ray_succ_shift]
    exact hrun (i + 1) (by omega) (by omega)
  · rw [ray_succ_shift]
    exact hin
  · rw [ray_succ_shift]
    exact hcell

theorem runAux_cons {b : Board} {c : Color} {d m : Int × Int} {k : Nat}
    (hin : inB (ray m d 1)) (hcell : cellAt b (ray m d 1) = some c.opposite)
    (h : runAux b (m.1 + d.1, m.2 + d.2) c d k) : runAux b m c d (k + 1) := by
  obtain ⟨hrun, hin2, hcell2⟩ := h
  refine ⟨fun i hi1 hik => ?_, ?_, ?_⟩
  · rcases Nat.eq_or_lt_of_le hi1 with h1 | h1
    · rw [← h1]
      exact ⟨hin, hcell⟩
    · have := hrun (i - 1) (by omega) (by omega)
      rwa [ray_succ_shift, Nat.sub_add_cancel (by omega)] at this
  · have := hin2
    rwa [ray_succ_shift] at this
  · have := hcell2
    rwa [ray_succ_shift] at this

theorem flipF_sound {b : Board} {c : Color} {d : Int × Int} :
    ∀ (fuel : Nat) (m : Int × Int) (found : Bool),
      is_flippable_lineF b c d fuel m found = true →
      ∃ k, (found = true ∨ 1 ≤ k) ∧ runAux b m c d k := by
  intro fuel
  induction fuel with
  | zero =>
    intro m found h
    simp [is_flippable_lineF] at h
  | succ f ih =>
    intro m found h
    simp only [is_flippable_lineF] at h
    by_cases hb : 0 ≤ m.1 + d.1 ∧ m.1 + d.1 < 8 ∧ 0 ≤ m.2 + d.2 ∧ m.2 + d.2 < 8
    · rw [if_neg (not_not_intro hb)] at h
      have hin1 : inB (ray m d 1) := by
        rw [ray_one]
        exact hb
      rcases hcell : b (m.1 + d.1).toNat (m.2 + d.2).toNat with _ | cell
      · rw [hcell] at h
        simp at h
      · simp only [hcell] at h
        have hcellAt : cellAt b (ray m d 1) = some cell := by
          rw [ray_one]
          exact hcell
        by_cases hc : cell = c
        · rw [if_pos hc] at h
          refine ⟨0, Or.inl h, by omega, ?_, ?_⟩
          · exact hin1
          · rw [hcellAt, hc]
        · rw [if_neg hc] at h
          obtain ⟨k', _, hrun'⟩ := ih (m.1 + d.1, m.2 + d.2) true h
          refine ⟨k' + 1, Or.inr (by omega), ?_⟩
          exact runAux_cons hin1 (by rw [hcellAt, Color.eq_opposite_of_ne hc]) hrun'
    · rw [if_pos hb] at h
      simp at h

theorem flipF_complete {b : Board} {c : Color} {d : Int × Int} :
    ∀ (k : Nat) (m : Int × Int) (found : Bool) (fuel : Nat),
      k + 1 ≤ fuel → (found = true ∨ 1 ≤ k) → runAux b m c d k →
      is_flippable_lineF b c d fuel m found = true := by
  intro k
  induction k with
  | zero =>
    intro m found fuel hfuel hdisj hrun
    obtain ⟨_, hin, hcell⟩ := hrun
    have hfound : found = true := by
      rcases hdisj with h | h
      · exact h
      · omega
    obtain ⟨f, rfl⟩ : ∃ f, fuel = f + 1 := ⟨fuel - 1, by omega⟩
    rw [ray_one] at hin hcell
    have hb : 0 ≤ m.1 + d.1 ∧ m.1 + d.1 < 8 ∧ 0 ≤ m.2 + d.2 ∧ m.2 + d.2 < 8 := hin
    have hread : b (m.1 + d.1).toNat (m.2 + d.2).toNat = some c := hcell
    simp only [is_flippable_lineF]
    rw [if_neg (not_not_intro hb)]
    simp only [hread]
    simpa using hfound
  | succ j ih =>
    intro m found fuel hfuel hdisj hrun
    have hin1 : inB (ray m d 1) := ((hrun.1) 1 le_rfl (by omega)).1
    have hcell1 : cellAt b (ray m d 1) = some c.opposite :=
      ((hrun.1) 1 le_rfl (by omega)).2
    obtain ⟨f, rfl⟩ : ∃ f, fuel = f + 1 := ⟨fuel - 1, by omega⟩
    have hin1' := hin1
    have hcell1' := hcell1
    rw [ray_one] at hin1' hcell1'
    have hb : 0 ≤ m.1 + d.1 ∧ m.1 + d.1 < 8 ∧ 0 ≤ m.2 + d.2 ∧ m.2 + d.2 < 8 := hin1'
    have hread : b (m.1 + d.1).toNat (m.2 + d.2).toNat = some c.opposite := hcell1'
    simp only [is_flippable_lineF]
    rw [if_neg (not_not_intro hb)]
    simp only [hread]
    rw [if_neg (Color.opposite_ne c)]
    exact ih (m.1 + d.1, m.2 + d.2) true f (by omega) (Or.inl rfl) (runAux_shift hrun)

theorem runAux_k_le {d : Int × Int} (hd : d ∈ directions) {b : Board} {m : Int × Int}
    {c : Color} {k : Nat} (h : runAux b m c d k) : k ≤ 7 := by
  obtain ⟨hrun, hin, _⟩ := h
  rcases Nat.eq_zero_or_pos k with rfl | hk
  · omega
  · have h1 := (hrun 1 le_rfl hk).1
    rcases directions_cases hd with rfl | rfl | rfl | rfl | rfl | rfl | rfl | rfl <;>
      (simp only [inB, ray] at h1 hin; push_cast at h1 hin; omega)

theorem is_flippable_line_iff {b : Board} {c : Color} {m d : Int × Int}
    (hd : d ∈ directions) :
    is_flippable_line b m c d false = true ↔ ∃ k, flipRun b m c d k := by
  constructor
  · intro h
    obtain ⟨k, hdisj, hrun⟩ := flipF_sound SIZE m false h
    refine ⟨k, ?_, hrun⟩
    rcases hdisj with h' | h'
    · simp at h'
    · exact h'
  · rintro ⟨k, hk, hrun⟩
    exact flipF_complete k m false SIZE
      (by have := runAux_k_le hd hrun; unfold SIZE; omega) (Or.inr hk) hrun

theorem flipRun_unique {b : Board} {c : Color} {m d : Int × Int} {k k' : Nat}
    (h : flipRun b m c d k) (h' : flipRun b m c d k') : k = k' := by
  by_contra hne
  rcases Nat.lt_or_ge k k' with hlt | hge
  · have hc := h.2.2.2
    have hopp := (h'.2.1 (k + 1) (by omega) (by omega)).2
    rw [hc] at hopp
    exact Color.opposite_ne c (Option.some.inj hopp).symm
  · have hlt : k' < k := by omega
    have hc := h'.2.2.2
    have hopp := (h.2.1 (k' + 1) (by omega) (by omega)).2
    rw [hc] at hopp
    exact Color.opposite_ne c (Option.some.inj hopp).symm

/-! ### Congruence: flippability depends only on the cells along the ray -/

theorem runAux_congr {b₁ b₂ : Board} {c : Color} {m d : Int × Int} {k : Nat}
    (hagree : ∀ i, 1 ≤ i → inB (ray m d i) →
      cellAt b₁ (ray m d i) = cellAt b₂ (ray m d i))
    (h : runAux b₁ m c d k) : runAux b₂ m c d k := by
  obtain ⟨hrun, hin, hcell⟩ := h
  refine ⟨fun i hi1 hik => ?_, hin, ?_⟩
  · obtain ⟨hi, hc⟩ := hrun i hi1 hik
    exact ⟨hi, by rw [← hagree i hi1 hi]; exact hc⟩
  · rw [← hagree (k + 1) (by omega) hin]
    exact hcell

theorem flipRun_congr {b₁ b₂ : Board} {c : Color} {m d : Int × Int} {k : Nat}
    (hagree : ∀ i, 1 ≤ i → inB (ray m d i) →
      cellAt b₁ (ray m d i) = cellAt b₂ (ray m d i))
    (h : flipRun b₁ m c d k) : flipRun b₂ m c d k :=
  ⟨h.1, runAux_congr hagree h.2⟩

theorem flipF_congr {b₁ b₂ : Board} {c : Color} {m d : Int × Int}
    (hagree : ∀ i, 1 ≤ i → inB (ray m d i) →
      cellAt b₁ (ray m d i) = cellAt b₂ (ray m d i)) :
    ∀ (fuel : Nat) (j : Nat) (found : Bool),
      is_flippable_lineF b₁ c d fuel (ray m d j) found =
        is_flippable_lineF b₂ c d fuel (ray m d j) found := by
  intro fuel
  induction fuel with
  | zero => intro j found; simp [is_flippable_lineF]
  | succ f ih =>
    intro j found
    simp only [is_flippable_lineF]
    by_cases hb : 0 ≤ (ray m d j).1 + d.1 ∧ (ray m d j).1 + d.1 < 8 ∧
        0 ≤ (ray m d j).2 + d.2 ∧ (ray m d j).2 + d.2 < 8
    · rw [if_neg (not_not_intro hb), if_neg (not_not_intro hb)]
      have hin : inB (ray m d (j + 1)) := by
        have := ray_succ m d j
        rw [← this]
        exact hb
      have hreads : b₁ ((ray m d j).1 + d.1).toNat ((ray m d j).2 + d.2).toNat =
          b₂ ((ray m d j).1 + d.1).toNat ((ray m d j).2 + d.2).toNat := by
        have ha := hagree (j + 1) (by omega) hin
        unfold cellAt at ha
        rw [← ray_succ m d j] at ha
        exact ha
      rcases hcell : b₁ ((ray m d j).1 + d.1).toNat ((ray m d j).2 + d.2).toNat with _ | cell
      · have hcell2 : b₂ ((ray m d j).1 + d.1).toNat ((ray m d j).2 + d.2).toNat = none := by
          rw [← hreads]
          exact hcell
        simp only [hcell, hcell2]
      · have hcell2 : b₂ ((ray m d j).1 + d.1).toNat ((ray m d j).2 + d.2).toNat = some cell := by
          rw [← hreads]
          exact hcell
        simp only [hcell, hcell2]
        by_cases hc : cell = c
        · rw [if_pos hc, if_pos hc]
        · rw [if_neg hc, if_neg hc]
          have := ih (j + 1) true
          rw [← ray_succ m d j] at this
          exact this
    · rw [if_pos hb, if_pos hb]

theorem is_flippable_line_congr {b₁ b₂ : Board} {c : Color} {m d : Int × Int}
    (hagree : ∀ i, 1 ≤ i → inB (ray m d i) →
      cellAt b₁ (ray m d i) = cellAt b₂ (ray m d i)) (found : Bool) :
    is_flippable_line b₁ m c d found = is_flippable_line b₂ m c d found := by
  have := @flipF_congr b₁ b₂ c m d hagree SIZE 0 found
  rwa [ray_zero] at this

/-! ### Correctness of the `flip_line` loop -/

theorem flip_line_strictF_spec {c : Color} {d : Int × Int} (hd : d ∈ directions) :
    ∀ (k : Nat) (b : Board) (m : Int × Int) (fuel : Nat),
      k + 1 ≤ fuel → runAux b m c d k →
      flip_line_strictF c d fuel b m = some (writeRay c d k b m) := by
  intro k
  induction k with
  | zero =>
    intro b m fuel hf hrun
    obtain ⟨_, hin, hcell⟩ := hrun
    obtain ⟨f, rfl⟩ : ∃ f, fuel = f + 1 := ⟨fuel - 1, by omega⟩
    rw [ray_one] at hin hcell
    have hb : 0 ≤ m.1 + d.1 ∧ m.1 + d.1 < 8 ∧ 0 ≤ m.2 + d.2 ∧ m.2 + d.2 < 8 := hin
    have hread : b (m.1 + d.1).toNat (m.2 + d.2).toNat = some c := hcell
    simp only [flip_line_strictF, writeRay]
    rw [if_pos hb, if_pos hread]
  | succ j ih =>
    intro b m fuel hf hrun
    obtain ⟨f, rfl⟩ : ∃ f, fuel = f + 1 := ⟨fuel - 1, by omega⟩
    have hin1 : inB (ray m d 1) := ((hrun.1) 1 le_rfl (by omega)).1
    have hcell1 : cellAt b (ray m d 1) = some c.opposite :=
      ((hrun.1) 1 le_rfl (by omega)).2
    have hin1' := hin1
    have hcell1' := hcell1
    rw [ray_one] at hin1' hcell1'
    have hb : 0 ≤ m.1 + d.1 ∧ m.1 + d.1 < 8 ∧ 0 ≤ m.2 + d.2 ∧ m.2 + d.2 < 8 := hin1'
    have hread : b (m.1 + d.1).toNat (m.2 + d.2).toNat = some c.opposite := hcell1'
    have hne : ¬ b (m.1 + d.1).toNat (m.2 + d.2).toNat = some c := by
      rw [hread]
      intro hcon
      exact Color.opposite_ne c (Option.some.inj hcon)
    simp only [flip_line_strictF, writeRay]
    rw [if_pos hb, if_neg hne]
    -- the board after the first write, and the shifted start cell
    set b' : Board := upd b (m.1 + d.1).toNat (m.2 + d.2).toNat (some c) with hb'
    have hshift : runAux b' (m.1 + d.1, m.2 + d.2) c d j := by
      refine @runAux_congr b b' c (m.1 + d.1, m.2 + d.2) d j ?_ (runAux_shift hrun)
      intro i hi1 hin
      rw [ray_succ_shift] at hin ⊢
      unfold cellAt
      rw [hb']
      rw [upd_ne]
      intro ⟨hx, hy⟩
      have hray1 : inB (ray m d 1) := hin1
      have hpt : pt (ray m d (i + 1)) = pt (ray m d 1) := by
        unfold pt
        rw [ray_one]
        simp [hx, hy]
      have := pt_inj hin hray1 hpt
      have := ray_inj hd this
      omega
    exact ih b' (m.1 + d.1, m.2 + d.2) f (by omega) hshift

theorem flip_lineF_of_strict {c : Color} {d : Int × Int} :
    ∀ (fuel : Nat) (b : Board) (m : Int × Int) (b' : Board),
      flip_line_strictF c d fuel b m = some b' →
      flip_lineF c d fuel b m = some b' := by
  intro fuel
  induction fuel with
  | zero => intro b m b' h; simp [flip_line_strictF] at h
  | succ f ih =>
    intro b m b' h
    simp only [flip_line_strictF] at h
    by_cases hb : 0 ≤ m.1 + d.1 ∧ m.1 + d.1 < 8 ∧ 0 ≤ m.2 + d.2 ∧ m.2 + d.2 < 8
    · rw [if_pos hb] at h
      simp only [flip_lineF]
      rw [pyIdx_of_inRange hb.1 hb.2.1, pyIdx_of_inRange hb.2.2.1 hb.2.2.2]
      by_cases hc : b (m.1 + d.1).toNat (m.2 + d.2).toNat = some c
      · rw [if_pos hc] at h
        simpa [hc] using h
      · rw [if_neg hc] at h
        simp only [hc, if_false]
        exact ih _ _ _ h
    · rw [if_neg hb] at h
      exact absurd h (by simp)

theorem flip_lineF_mono {c : Color} {d : Int × Int} :
    ∀ (f f' : Nat) (b : Board) (m : Int × Int) (b' : Board), f ≤ f' →
      flip_lineF c d f b m = some b' → flip_lineF c d f' b m = some b' := by
  intro f
  induction f with
  | zero => intro f' b m b' _ h; simp [flip_lineF] at h
  | succ g ih =>
    intro f' b m b' hle h
    obtain ⟨g', rfl⟩ : ∃ g', f' = g' + 1 := ⟨f' - 1, by omega⟩
    simp only [flip_lineF] at h ⊢
    rcases hr : pyIdx (m.1 + d.1) with _ | r
    · rw [hr] at h
      simp at h
    · rcases hcc : pyIdx (m.2 + d.2) with _ | cc
      · rw [hr, hcc] at h
        simp at h
      · simp only [hr, hcc] at h
        simp only [hr, hcc]
        by_cases hc : b r cc = some c
        · rwa [if_pos hc] at h ⊢
        · rw [if_neg hc] at h ⊢
          exact ih g' _ _ _ (by omega) h

theorem flip_line_spec {c : Color} {d : Int × Int} (hd : d ∈ directions) {b : Board}
    {m : Int × Int} {k : Nat} (hrun : runAux b m c d k) :
    flip_line b m c d = some (writeRay c d k b m) := by
  have hk := runAux_k_le hd hrun
  have hs := flip_line_strictF_spec hd k b m (k + 1) le_rfl hrun
  have hp := flip_lineF_of_strict (k + 1) b m _ hs
  exact flip_lineF_mono (k + 1) SIZE b m _ (by unfold SIZE; omega) hp

/-! ### What `writeRay` does to each cell -/

theorem writeRay_eq_of_ne {c : Color} {d : Int × Int} :
    ∀ (k : Nat) (b : Board) (m : Int × Int) (x y : Nat),
      (∀ i, 1 ≤ i → i ≤ k → pt (ray m d i) ≠ (x, y)) →
      writeRay c d k b m x y = b x y := by
  intro k
  induction k with
  | zero => intro b m x y _; rfl
  | succ j ih =>
    intro b m x y hmiss
    simp only [writeRay]
    rw [ih _ _ x y ?_]
    · apply upd_ne
      intro ⟨hx, hy⟩
      apply hmiss 1 le_rfl (by omega)
      unfold pt
      rw [ray_one]
      simp [hx, hy]
    · intro i hi1 hij
      rw [ray_succ_shift]
      exact hmiss (i + 1) (by omega) (by omega)

theorem writeRay_preserve {c : Color} {d : Int × Int} :
    ∀ (k : Nat) (b : Board) (m : Int × Int) (x y : Nat),
      b x y = some c → writeRay c d k b m x y = some c := by
  intro k
  induction k with
  | zero => intro b m x y h; exact h
  | succ j ih =>
    intro b m x y h
    simp only [writeRay]
    apply ih
    by_cases hxy : x = (m.1 + d.1).toNat ∧ y = (m.2 + d.2).toNat
    · obtain ⟨rfl, rfl⟩ := hxy
      exact upd_same ..
    · rw [upd_ne _ hxy]
      exact h

theorem writeRay_run {c : Color} {d : Int × Int} :
    ∀ (k : Nat) (b : Board) (m : Int × Int),
      (∀ i, 1 ≤ i → i ≤ k → inB (ray m d i)) →
      ∀ i, 1 ≤ i → i ≤ k → cellAt (writeRay c d k b m) (ray m d i) = some c := by
  intro k
  induction k with
  | zero => intro b m _ i hi1 hi0; omega
  | succ j ih =>
    intro b m hin i hi1 hij
    simp only [writeRay]
    rcases Nat.eq_or_lt_of_le hi1 with h1 | h1
    · -- the first written cell: already `some c`, preserved by the rest
      unfold cellAt
      rw [← h1]
      apply writeRay_preserve
      have : pt (ray m d 1) = ((m.1 + d.1).toNat, (m.2 + d.2).toNat) := by
        unfold pt
        rw [ray_one]
      rw [show (ray m d 1).1.toNat = (m.1 + d.1).toNat by rw [ray_one],
        show (ray m d 1).2.toNat = (m.2 + d.2).toNat by rw [ray_one]]
      exact upd_same ..
    · have := ih (upd b (m.1 + d.1).toNat (m.2 + d.2).toNat (some c)) (m.1 + d.1, m.2 + d.2)
        ?_ (i - 1) (by omega) (by omega)
      · rwa [ray_succ_shift, Nat.sub_add_cancel (by omega)] at this
      · intro i' hi'1 hi'j
        rw [ray_succ_shift]
        exact hin (i' + 1) (by omega) (by omega)

/-! ### The `do_flip` fold -/

theorem flipStep_pos {b : Board} {m c d} (hfl : is_flippable_line b m c d false = true) :
    flipStep m c (some b) d = flip_line b m c d := by
  show (if is_flippable_line b m c d false then flip_line b m c d else some b) = _
  rw [if_pos hfl]

theorem flipStep_neg {b : Board} {m c d} (hfl : ¬ is_flippable_line b m c d false = true) :
    flipStep m c (some b) d = some b := by
  show (if is_flippable_line b m c d false then flip_line b m c d else some b) = _
  rw [if_neg hfl]

theorem foldl_flip_spec {m : Int × Int} {c : Color} (b0 : Board) :
    ∀ (L : List (Int × Int)), (∀ d ∈ L, d ∈ directions) → L.Nodup →
      ∀ (bb : Board),
        (∀ d ∈ L, ∀ i, 1 ≤ i → inB (ray m d i) →
          cellAt bb (ray m d i) = cellAt b0 (ray m d i)) →
        ∃ bf, List.foldl (flipStep m c) (some bb) L = some bf ∧
          (∀ d ∈ L, ∀ k, flipRun b0 m c d k →
            ∀ i, 1 ≤ i → i ≤ k → cellAt bf (ray m d i) = some c) ∧
          (∀ x y : Nat,
            (∀ d ∈ L, ∀ k, flipRun b0 m c d k →
              ∀ i, 1 ≤ i → i ≤ k → pt (ray m d i) ≠ (x, y)) →
            bf x y = bb x y) := by
  intro L
  induction L with
  | nil =>
    intro _ _ bb _
    exact ⟨bb, rfl, by simp, fun x y _ => rfl⟩
  | cons d rest ih =>
    intro hmem hnd bb hagree
    have hd : d ∈ directions := hmem d (by simp)
    have hdrest : d ∉ rest := (List.nodup_cons.1 hnd).1
    have hndrest : rest.Nodup := (List.nodup_cons.1 hnd).2
    have hagree_d : ∀ i, 1 ≤ i → inB (ray m d i) →
        cellAt bb (ray m d i) = cellAt b0 (ray m d i) := hagree d (by simp)
    have hflcong := @is_flippable_line_congr bb b0 c m d hagree_d false
    rw [List.foldl_cons]
    by_cases hfl : is_flippable_line bb m c d false = true
    · -- this direction flips: the current board becomes `writeRay`
      have hflb0 : is_flippable_line b0 m c d false = true := by
        rw [← hflcong]
        exact hfl
      obtain ⟨k, hk0⟩ := (is_flippable_line_iff hd).1 hflb0
      have hkbb : flipRun bb m c d k :=
        flipRun_congr (fun i a b' => (hagree_d i a b').symm) hk0
      have hflip : flip_line bb m c d = some (writeRay c d k bb m) :=
        flip_line_spec hd hkbb.2
      rw [flipStep_pos hfl, hflip]
      set bb' : Board := writeRay c d k bb m with hbb'
      have hptne : ∀ (d' : Int × Int), d' ∈ directions → d' ≠ d →
          ∀ i, 1 ≤ i → inB (ray m d' i) →
          ∀ i', 1 ≤ i' → i' ≤ k → pt (ray m d i') ≠ pt (ray m d' i) := by
        intro d' hd' hne i hi1 hinB i' hi'1 hi'k
        intro hpt
        have hin' : inB (ray m d i') := (hk0.2.1 i' hi'1 hi'k).1
        exact ray_disjoint hd hd' (fun h => hne h.symm) hi'1 hi1 (pt_inj hin' hinB hpt)
      have hagree' : ∀ d' ∈ rest, ∀ i, 1 ≤ i → inB (ray m d' i) →
          cellAt bb' (ray m d' i) = cellAt b0 (ray m d' i) := by
        intro d' hd' i hi1 hinB
        have hne : d' ≠ d := fun h => hdrest (h ▸ hd')
        have hstay : cellAt bb' (ray m d' i) = cellAt bb (ray m d' i) := by
          unfold cellAt
          rw [hbb']
          apply writeRay_eq_of_ne
          intro i' hi'1 hi'k hpt
          exact hptne d' (hmem d' (by simp [hd'])) hne i hi1 hinB i' hi'1 hi'k
            (by rw [hpt]; rfl)
        rw [hstay]
        exact hagree d' (by simp [hd']) i hi1 hinB
      obtain ⟨bf, hfold, hA, hB⟩ := ih (fun d' h => hmem d' (by simp [h])) hndrest bb' hagree'
      refine ⟨bf, hfold, ?_, ?_⟩
      · intro d' hd' k' hk' i hi1 hik
        rcases List.mem_cons.1 hd' with rfl | hd'r
        · -- the direction just flipped
          have hkk : k' = k := flipRun_unique hk' hk0
          subst hkk
          have hin_i : inB (ray m d' i) := (hk0.2.1 i hi1 hik).1
          have hbf : bf (ray m d' i).1.toNat (ray m d' i).2.toNat =
              bb' (ray m d' i).1.toNat (ray m d' i).2.toNat := by
            apply hB
            intro d'' hd'' k'' hk'' i'' hi''1 hi''k
            have hne : d'' ≠ d' := fun h => hdrest (h ▸ hd'')
            intro hpt
            have hin'' : inB (ray m d'' i'') := (hk''.2.1 i'' hi''1 hi''k).1
            exact ray_disjoint (hmem d'' (by simp [hd''])) hd
              (fun h => hne h) hi''1 hi1 (pt_inj hin'' hin_i hpt)
          unfold cellAt
          rw [hbf]
          have := @writeRay_run c d' k' bb m (fun j hj1 hjk => (hk0.2.1 j hj1 hjk).1) i hi1 hik
          unfold cellAt at this
          rw [hbb']
          exact this
        · exact hA d' hd'r k' hk' i hi1 hik
      · intro x y hmiss
        have h1 := hB x y (fun d' hd' k' hk' i hi1 hik =>
          hmiss d' (by simp [hd']) k' hk' i hi1 hik)
        rw [h1, hbb']
        apply writeRay_eq_of_ne
        intro i hi1 hik
        exact hmiss d (by simp) k hk0 i hi1 hik
    · -- this direction does not flip: the board is unchanged
      rw [flipStep_neg hfl]
      obtain ⟨bf, hfold, hA, hB⟩ := ih (fun d' h => hmem d' (by simp [h])) hndrest bb
        (fun d' h => hagree d' (by simp [h]))
      refine ⟨bf, hfold, ?_, ?_⟩
      · intro d' hd' k' hk' i hi1 hik
        rcases List.mem_cons.1 hd' with rfl | hd'r
        · exfalso
          apply hfl
          rw [hflcong]
          exact (is_flippable_line_iff hd).2 ⟨k', hk'⟩
        · exact hA d' hd'r k' hk' i hi1 hik
      · intro x y hmiss
        exact hB x y (fun d' hd' k' hk' i hi1 hik =>
          hmiss d' (by simp [hd']) k' hk' i hi1 hik)

theorem do_flip_spec (b : Board) (c : Color) (m : Int × Int) :
    ∃ bf, do_flip b c m = some bf ∧
      (∀ d ∈ directions, ∀ k, flipRun b m c d k →
        ∀ i, 1 ≤ i → i ≤ k → cellAt bf (ray m d i) = some c) ∧
      (∀ x y : Nat,
        (∀ d ∈ directions, ∀ k, flipRun b m c d k →
          ∀ i, 1 ≤ i → i ≤ k → pt (ray m d i) ≠ (x, y)) →
        bf x y = b x y) :=
  foldl_flip_spec b directions (fun _ h => h) (by decide) b (fun _ _ _ _ _ => rfl)

/-! ### `find_adjacent` and the characterization of `valid_move` -/

theorem adjacent_mem {d : Int × Int} (hd : d ∈ directions) (m : Int × Int) :
    (m.1 + d.1, m.2 + d.2) ∈ adjacents m := by
  rcases directions_cases hd with rfl | rfl | rfl | rfl | rfl | rfl | rfl | rfl <;>
    simp [adjacents, Prod.ext_iff] <;> omega

theorem find_adjacent_of_run {b : Board} {c : Color} {m d : Int × Int}
    (hd : d ∈ directions) {k : Nat} (hrun : flipRun b m c d k) :
    find_adjacent b m c = true := by
  obtain ⟨hin, hcell⟩ := hrun.2.1 1 le_rfl hrun.1
  rw [ray_one] at hin hcell
  have hb : 0 ≤ m.1 + d.1 ∧ m.1 + d.1 < 8 ∧ 0 ≤ m.2 + d.2 ∧ m.2 + d.2 < 8 := hin
  have hread : b (m.1 + d.1).toNat (m.2 + d.2).toNat = some c.opposite := hcell
  unfold find_adjacent
  rw [List.any_eq_true]
  refine ⟨(m.1 + d.1, m.2 + d.2), adjacent_mem hd m, ?_⟩
  simp only [pyIdx_of_inRange hb.1 hb.2.1, pyIdx_of_inRange hb.2.2.1 hb.2.2.2, hread]
  simp

theorem valid_move_iff (b : Board) (c : Color) (m : Int × Int) :
    valid_move b c m = true ↔ valid_move_spec b c m := by
  unfold valid_move valid_move_spec
  by_cases hb : 0 ≤ m.1 ∧ m.1 < 8 ∧ 0 ≤ m.2 ∧ m.2 < 8
  · rw [if_neg (not_not_intro hb)]
    by_cases he : (b m.1.toNat m.2.toNat).isSome
    · rw [if_pos he]
      simp only [Bool.false_eq_true, false_iff]
      rintro ⟨_, hnone, _⟩
      unfold cellAt at hnone
      rw [hnone] at he
      simp at he
    · rw [if_neg he]
      have hnone : cellAt b m = none := by
        unfold cellAt
        rwa [Option.not_isSome_iff_eq_none] at he
      by_cases hfa : find_adjacent b m c = true
      · rw [if_neg (not_not_intro hfa)]
        constructor
        · intro h
          rw [List.any_eq_true] at h
          obtain ⟨d, hd, hflip⟩ := h
          obtain ⟨k, hk⟩ := (is_flippable_line_iff hd).1 hflip
          exact ⟨hb, hnone, d, hd, k, hk⟩
        · rintro ⟨_, _, d, hd, k, hk⟩
          rw [List.any_eq_true]
          exact ⟨d, hd, (is_flippable_line_iff hd).2 ⟨k, hk⟩⟩
      · rw [if_pos hfa]
        simp only [Bool.false_eq_true, false_iff]
        rintro ⟨_, _, d, hd, k, hk⟩
        exact hfa (find_adjacent_of_run hd hk)
  · rw [if_pos hb]
    simp only [Bool.false_eq_true, false_iff]
    rintro ⟨hin, _, _⟩
    exact hb hin

theorem flippable_find_adjacent (b : Board) (c : Color) (m d : Int × Int)
    (hd : d ∈ directions) (hflip : is_flippable_line b m c d false = true) :
    find_adjacent b m c = true := by
  obtain ⟨k, hk⟩ := (is_flippable_line_iff hd).1 hflip
  exact find_adjacent_of_run hd hk

theorem valid_move_eq_noadj (b : Board) (c : Color) (m : Int × Int) :
    valid_move b c m = valid_move_noadj b c m := by
  unfold valid_move valid_move_noadj
  by_cases hb : 0 ≤ m.1 ∧ m.1 < 8 ∧ 0 ≤ m.2 ∧ m.2 < 8
  · rw [if_neg (not_not_intro hb), if_neg (not_not_intro hb)]
    by_cases he : (b m.1.toNat m.2.toNat).isSome
    · rw [if_pos he, if_pos he]
    · rw [if_neg he, if_neg he]
      by_cases hfa : find_adjacent b m c = true
      · rw [if_neg (not_not_intro hfa)]
      · rw [if_pos hfa]
        rcases hany : directions.any
            (fun direction => is_flippable_line b m c direction false) with _ | _
        · rfl
        · exfalso
          rw [List.any_eq_true] at hany
          obtain ⟨d, hd, hflip⟩ := hany
          exact hfa (flippable_find_adjacent b c m d hd hflip)
  · rw [if_pos hb, if_pos hb]

/-! ### Applying a validated move -/

theorem apply_move_spec (b : Board) (c : Color) (m : Int × Int)
    (hv : valid_move b c m = true) :
    ∃ b', do_flip (upd b m.1.toNat m.2.toNat (some c)) c m = some b' ∧
      apply_move b c m = b' ∧
      cellAt b' m = some c ∧
      (∀ d ∈ directions, ∀ k, flipRun b m c d k →
        ∀ i, 1 ≤ i → i ≤ k → cellAt b' (ray m d i) = some c) ∧
      (∀ x y : Nat, ¬(x = m.1.toNat ∧ y = m.2.toNat) →
        (∀ d ∈ directions, ∀ k, flipRun b m c d k →
          ∀ i, 1 ≤ i → i ≤ k → pt (ray m d i) ≠ (x, y)) →
        b' x y = b x y) := by
  obtain ⟨hin, hnone, _⟩ := (valid_move_iff b c m).1 hv
  set placed : Board := upd b m.1.toNat m.2.toNat (some c) with hplaced
  have hagree : ∀ d ∈ directions, ∀ i, 1 ≤ i → inB (ray m d i) →
      cellAt placed (ray m d i) = cellAt b (ray m d i) := by
    intro d hd i hi1 hinB
    unfold cellAt
    rw [hplaced]
    apply upd_ne
    intro ⟨hx, hy⟩
    have hpt : pt (ray m d i) = pt m := by
      unfold pt
      rw [hx, hy]
    exact ray_ne_self hd hi1 (pt_inj hinB hin hpt)
  have hrun_iff : ∀ d ∈ directions, ∀ k, (flipRun placed m c d k ↔ flipRun b m c d k) :=
    fun d hd k =>
      ⟨flipRun_congr (hagree d hd), flipRun_congr (fun i a b' => (hagree d hd i a b').symm)⟩
  obtain ⟨bf, hfold, hA, hB⟩ := do_flip_spec placed c m
  refine ⟨bf, hfold, ?_, ?_, ?_, ?_⟩
  · have hfold' := hfold
    rw [hplaced] at hfold'
    show (do_flip (upd b m.1.toNat m.2.toNat (some c)) c m).getD
      (upd b m.1.toNat m.2.toNat (some c)) = bf
    rw [hfold']
    rfl
  · have hbf : bf m.1.toNat m.2.toNat = placed m.1.toNat m.2.toNat := by
      apply hB
      intro d hd k hk i hi1 hik hpt
      have hin_i : inB (ray m d i) := (hk.2.1 i hi1 hik).1
      have : pt (ray m d i) = pt m := hpt
      exact ray_ne_self hd hi1 (pt_inj hin_i hin this)
    unfold cellAt
    rw [hbf, hplaced]
    exact upd_same ..
  · intro d hd k hk i hi1 hik
    exact hA d hd k ((hrun_iff d hd k).2 hk) i hi1 hik
  · intro x y hxy hmiss
    have h1 : bf x y = placed x y := by
      apply hB
      intro d hd k hk i hi1 hik
      exact hmiss d hd k ((hrun_iff d hd k).1 hk) i hi1 hik
    rw [h1, hplaced]
    exact upd_ne b hxy (some c)

/-! ### Counting discs -/

theorem countP_add_split {α : Type} (f g h : α → Bool) :
    ∀ l : List α, (∀ x ∈ l, (f x).toNat + (g x).toNat = (h x).toNat) →
      l.countP f + l.countP g = l.countP h := by
  intro l
  induction l with
  | nil => intro _; rfl
  | cons a t ih =>
    intro H
    rw [List.countP_cons, List.countP_cons, List.countP_cons]
    have ha := H a (by simp)
    have ht := ih (fun x hx => H x (by simp [hx]))
    rcases hfa : f a <;> rcases hga : g a <;> rcases hha : h a <;>
      simp [hfa, hga, hha] at ha ⊢ <;> omega

theorem black_add_white (b : Board) :
    black_count b + white_count b = cellList.countP (fun p => (b p.1 p.2).isSome) := by
  unfold black_count white_count
  apply countP_add_split
  intro p _
  rcases b p.1 p.2 with _ | c
  · simp
  · cases c <;> simp

theorem total_le_64 (b : Board) : black_count b + white_count b ≤ 64 := by
  rw [black_add_white]
  have h1 := List.countP_le_length (l := cellList)
    (p := fun p => (b p.1 p.2).isSome)
  have h2 : cellList.length = 64 := by decide
  omega

theorem countP_update_one {α : Type} (f g : α → Bool) (a : α) :
    ∀ l : List α, l.Nodup → a ∈ l → f a = true → g a = false →
      (∀ x ∈ l, x ≠ a → f x = g x) → l.countP f = l.countP g + 1 := by
  intro l
  induction l with
  | nil => intro _ h _ _ _; simp at h
  | cons x t ih =>
    intro hnd hmem hfa hga hrest
    have hxnotmem : x ∉ t := (List.nodup_cons.1 hnd).1
    have hndt : t.Nodup := (List.nodup_cons.1 hnd).2
    rw [List.countP_cons, List.countP_cons]
    by_cases hxa : x = a
    · subst hxa
      have hcong : t.countP f = t.countP g := by
        apply List.countP_congr
        intro y hy
        rw [hrest y (by simp [hy]) (fun h => hxnotmem (h ▸ hy))]
      rw [hcong, hfa, hga]
      simp
    · have hat : a ∈ t := by
        rcases List.mem_cons.1 hmem with h | h
        · exact absurd h.symm hxa
        · exact h
      have hfg : f x = g x := hrest x (by simp) hxa
      have ht := ih hndt hat hfa hga (fun y hy hne => hrest y (by simp [hy]) hne)
      rw [hfg]
      rcases hgx : g x <;> simp [hgx] <;> omega

theorem cellList_mem {r c : Nat} (hr : r < 8) (hc : c < 8) : (r, c) ∈ cellList := by
  unfold cellList
  rw [List.mem_flatMap]
  exact ⟨r, List.mem_range.2 hr, List.mem_map.2 ⟨c, List.mem_range.2 hc, rfl⟩⟩

theorem cellList_bounds {p : Nat × Nat} (hp : p ∈ cellList) : p.1 < 8 ∧ p.2 < 8 := by
  unfold cellList at hp
  rw [List.mem_flatMap] at hp
  obtain ⟨r, hr, hp⟩ := hp
  rw [List.mem_map] at hp
  obtain ⟨c, hc, rfl⟩ := hp
  exact ⟨List.mem_range.1 hr, List.mem_range.1 hc⟩

theorem occ_upd_some (b : Board) {r c : Nat} (hr : r < 8) (hc : c < 8)
    (hempty : b r c = none) (v : Color) :
    cellList.countP (fun p => ((upd b r c (some v)) p.1 p.2).isSome)
      = cellList.countP (fun p => (b p.1 p.2).isSome) + 1 := by
  apply countP_update_one _ _ (r, c) cellList (by decide) (cellList_mem hr hc)
  · simp [upd_same]
  · simp [hempty]
  · intro x _ hne
    have hx : ¬(x.1 = r ∧ x.2 = c) := by
      intro ⟨h1, h2⟩
      exact hne (Prod.ext h1 h2)
    simp [upd_ne b hx]

theorem apply_move_count (b : Board) (c : Color) (m : Int × Int)
    (hv : valid_move b c m = true) :
    black_count (apply_move b c m) + white_count (apply_move b c m)
      = (black_count b + white_count b) + 1 := by
  obtain ⟨hin, hnone, _⟩ := (valid_move_iff b c m).1 hv
  have hr8 : m.1.toNat < 8 := by
    obtain ⟨h1, h2, _, _⟩ := hin
    omega
  have hc8 : m.2.toNat < 8 := by
    obtain ⟨_, _, h3, h4⟩ := hin
    omega
  obtain ⟨bf, hfold, happ, hm, hA, hB⟩ := apply_move_spec b c m hv
  rw [happ, black_add_white, black_add_white]
  have hcong : cellList.countP (fun p => (bf p.1 p.2).isSome)
      = cellList.countP (fun p => ((upd b m.1.toNat m.2.toNat (some c)) p.1 p.2).isSome) := by
    apply List.countP_congr
    intro p hp
    by_cases hpm : p = (m.1.toNat, m.2.toNat)
    · subst hpm
      have h1 : bf m.1.toNat m.2.toNat = some c := hm
      simp [h1, upd_same]
    · have hpne : ¬(p.1 = m.1.toNat ∧ p.2 = m.2.toNat) := by
        intro ⟨h1, h2⟩
        exact hpm (Prod.ext h1 h2)
      by_cases honrun : ∃ d, d ∈ directions ∧ ∃ k, flipRun b m c d k ∧
          ∃ i, 1 ≤ i ∧ i ≤ k ∧ pt (ray m d i) = (p.1, p.2)
      · obtain ⟨d, hd, k, hk, i, hi1, hik, hpt⟩ := honrun
        have hray := hA d hd k hk i hi1 hik
        unfold cellAt at hray
        have hcellb := (hk.2.1 i hi1 hik).2
        unfold cellAt at hcellb
        have hpt1 : (ray m d i).1.toNat = p.1 := congrArg Prod.fst hpt
        have hpt2 : (ray m d i).2.toNat = p.2 := congrArg Prod.snd hpt
        rw [hpt1, hpt2] at hray hcellb
        rw [hray, upd_ne b hpne, hcellb]
        simp
      · push_neg at honrun
        have h1 : bf p.1 p.2 = b p.1 p.2 := by
          apply hB p.1 p.2 hpne
          intro d hd k hk i hi1 hik hpt
          exact honrun d hd k hk i hi1 hik hpt
        rw [h1, upd_ne b hpne]
  rw [hcong]
  have hempty : b m.1.toNat m.2.toNat = none := hnone
  rw [occ_upd_some b hr8 hc8 hempty c]

/-! ### The `play_game` loop: classification of one iteration -/

theorem step_board_cases (s : GState) (e : Ev) :
    ((step s e).board = s.board ∧ (step s e).moves = s.moves) ∨
    (∃ mv, valid_move s.board s.turn mv = true ∧
      (step s e).board = apply_move s.board s.turn mv ∧
      (step s e).moves = s.moves + 1) := by
  unfold step
  by_cases hdone : s.done = true
  · rw [if_pos hdone]
    left
    exact ⟨rfl, rfl⟩
  · rw [if_neg hdone]
    by_cases hnv : no_valid_moves s.board s.turn = true
    · rw [if_pos hnv]
      left
      exact ⟨rfl, rfl⟩
    · rw [if_neg hnv]
      cases e with
      | stop =>
        left
        exact ⟨rfl, rfl⟩
      | line str =>
        rcases hp : parse_coordinate (rstrip str) with err | mv
        · left
          simp [hp]
        · by_cases hvm : valid_move s.board s.turn mv = true
          · right
            refine ⟨mv, hvm, ?_, ?_⟩ <;> simp [hp, hvm]
          · left
            have hvm' : valid_move s.board s.turn mv = false :=
              Bool.eq_false_iff.2 hvm
            refine ⟨?_, ?_⟩ <;> simp [hp, hvm']

theorem reach_total (s : GState) (h : Reachable s) :
    black_count s.board + white_count s.board = 4 + s.moves := by
  induction h with
  | init => decide
  | next s e hs ih =>
    rcases step_board_cases s e with ⟨hb, hm⟩ | ⟨mv, hvm, hb, hm⟩
    · rw [hb, hm]
      exact ih
    · rw [hb, hm, apply_move_count _ _ _ hvm]
      omega

/-! ### Step equations for each branch of the loop -/

theorem step_done (s : GState) (e : Ev) (hdone : s.done = true) : step s e = s := by
  unfold step
  rw [if_pos hdone]

theorem step_skip_branch (s : GState) (e : Ev) (hdone : s.done = false)
    (hnv : no_valid_moves s.board s.turn = true) :
    step s e = { s with
      turn := s.turn.opposite
      skip := s.skip + 1
      done := decide (2 ≤ s.skip + 1)
      result := if 2 ≤ s.skip + 1 then some (count_tokens_and_determine_winner s.board)
        else s.result } := by
  unfold step
  rw [if_neg (by simp [hdone]), if_pos hnv]

theorem step_stop (s : GState) (hdone : s.done = false)
    (hnv : no_valid_moves s.board s.turn = false) :
    step s Ev.stop = { s with skip := 0, done := true } := by
  unfold step
  rw [if_neg (by simp [hdone]), if_neg (by simp [hnv])]

theorem step_parse_error (s : GState) (str : List Char) (err : CoordinateParseError)
    (hdone : s.done = false) (hnv : no_valid_moves s.board s.turn = false)
    (hp : parse_coordinate (rstrip str) = .error err) :
    step s (Ev.line str) = { s with skip := 0 } := by
  unfold step
  rw [if_neg (by simp [hdone]), if_neg (by simp [hnv])]
  simp [hp]

theorem step_invalid (s : GState) (str : List Char) (mv : Int × Int)
    (hdone : s.done = false) (hnv : no_valid_moves s.board s.turn = false)
    (hp : parse_coordinate (rstrip str) = .ok mv)
    (hvm : valid_move s.board s.turn mv = false) :
    step s (Ev.line str) = { s with skip := 0 } := by
  unfold step
  rw [if_neg (by simp [hdone]), if_neg (by simp [hnv])]
  simp [hp, hvm]

theorem step_valid (s : GState) (str : List Char) (mv : Int × Int)
    (hdone : s.done = false) (hnv : no_valid_moves s.board s.turn = false)
    (hp : parse_coordinate (rstrip str) = .ok mv)
    (hvm : valid_move s.board s.turn mv = true) :
    step s (Ev.line str) = { s with
      board := apply_move s.board s.turn mv
      turn := s.turn.opposite
      skip := 0
      moves := s.moves + 1 } := by
  unfold step
  rw [if_neg (by simp [hdone]), if_neg (by simp [hnv])]
  simp [hp, hvm]

/-! ### The skip counter of a live reachable state is 0 or 1 -/

theorem reach_skip_le (s : GState) (h : Reachable s) : s.done = false → s.skip ≤ 1 := by
  induction h with
  | init =>
    intro _
    decide
  | next s e hs ih =>
    intro hdone'
    by_cases hdone : s.done = true
    · rw [step_done s e hdone] at hdone' ⊢
      exact ih hdone'
    · have hdone0 : s.done = false := Bool.eq_false_iff.2 hdone
      by_cases hnv : no_valid_moves s.board s.turn = true
      · rw [step_skip_branch s e hdone0 hnv] at hdone' ⊢
        have h2 : decide (2 ≤ s.skip + 1) = false := hdone'
        rw [decide_eq_false_iff_not] at h2
        show s.skip + 1 ≤ 1
        omega
      · have hnv0 : no_valid_moves s.board s.turn = false := Bool.eq_false_iff.2 hnv
        cases e with
        | stop =>
          rw [step_stop s hdone0 hnv0] at hdone'
          exact absurd hdone' (by simp)
        | line str =>
          rcases hp : parse_coordinate (rstrip str) with err | mv
          · rw [step_parse_error s str err hdone0 hnv0 hp]
            exact Nat.zero_le 1
          · by_cases hvm : valid_move s.board s.turn mv = true
            · rw [step_valid s str mv hdone0 hnv0 hp hvm]
              exact Nat.zero_le 1
            · rw [step_invalid s str mv hdone0 hnv0 hp (Bool.eq_false_iff.2 hvm)]
              exact Nat.zero_le 1

/-! ### The winner string -/

theorem winner_trichotomy (b : Board) :
    (count_tokens_and_determine_winner b = "Black wins!" ↔
      white_count b < black_count b) ∧
    (count_tokens_and_determine_winner b = "White wins!" ↔
      black_count b < white_count b) ∧
    (count_tokens_and_determine_winner b = "It's a tie!" ↔
      black_count b = white_count b) := by
  unfold count_tokens_and_determine_winner
  by_cases h1 : black_count b > white_count b
  · rw [if_pos h1]
    refine ⟨⟨fun _ => h1, fun _ => rfl⟩, ?_, ?_⟩
    · exact ⟨fun h => absurd h (by decide), fun h => absurd h (by omega)⟩
    · exact ⟨fun h => absurd h (by decide), fun h => absurd h (by omega)⟩
  · rw [if_neg h1]
    by_cases h2 : white_count b > black_count b
    · rw [if_pos h2]
      refine ⟨?_, ⟨fun _ => h2, fun _ => rfl⟩, ?_⟩
      · exact ⟨fun h => absurd h (by decide), fun h => absurd h (by omega)⟩
      · exact ⟨fun h => absurd h (by decide), fun h => absurd h (by omega)⟩
    · rw [if_neg h2]
      have heq : black_count b = white_count b := by omega
      refine ⟨?_, ?_, ⟨fun _ => heq, fun _ => rfl⟩⟩
      · exact ⟨fun h => absurd h (by decide), fun h => absurd h (by omega)⟩
      · exact ⟨fun h => absurd h (by decide), fun h => absurd h (by omega)⟩

/-! ### Digits are unchanged by lowercasing -/

theorem lowerOrd_digit (n : Nat) : (49 ≤ lowerOrd n ∧ lowerOrd n ≤ 56) ↔ (49 ≤ n ∧ n ≤ 56) := by
  unfold lowerOrd
  split_ifs with h <;> omega

/-! ### Claim theorems -/

/-- C1 counterexample: the claim's legal-move set for Black on the initial
board is wrong for this code. `d3` (coordinate `(2,3)`) is claimed legal but
`valid_move` rejects it, while `e3` (coordinate `(2,4)`), outside the
claimed set, is accepted. -/
theorem C1_counterexample :
    valid_move initial_board Color.BLACK ((2 : Int), (3 : Int)) = false ∧
    valid_move initial_board Color.BLACK ((2 : Int), (4 : Int)) = true := by
  decide

/-- C1 (amended): on the initial board produced by `play_game`'s setup
(Black at `(3,3)` and `(4,4)`, White at `(3,4)` and `(4,3)`), the set of
coordinates for which `valid_move(board, BLACK, coord)` returns true is
exactly `{e3, f4, c5, d6}` — coordinates `(2,4)`, `(3,5)`, `(4,2)`,
`(5,3)` — and no others. -/
theorem C1_amended_legal_moves :
    cellList.filter
        (fun p => valid_move initial_board Color.BLACK ((p.1 : Int), (p.2 : Int)))
      = [(2, 4), (3, 5), (4, 2), (5, 3)] := by
  decide

/-- C2: for every board, color and coordinate, `valid_move` returns true
iff the coordinate is within `[0,7] × [0,7]`, the cell there is empty, and
at least one of the 8 directions carries a flippable line — one or more
contiguous opponent cells immediately followed by a cell of the mover's
color, with no empty cell or edge before that bookend; a direction whose
first outward cell is already the mover's color does not count. -/
theorem C2_valid_move_characterization (b : Board) (c : Color) (m : Int × Int) :
    valid_move b c m = true ↔ valid_move_spec b c m :=
  valid_move_iff b c m

/-- C3: under the precondition `valid_move`, the placement
(`board[move[0]][move[1]] = turn`) followed by `do_flip` sets the cell at
the move to the mover's color, overwrites every opponent cell of every
flippable line up to (excluding) the bookend with the mover's color — all
qualifying directions in one move — and changes no other cell. -/
theorem C3_apply_move_spec (b : Board) (c : Color) (m : Int × Int)
    (hv : valid_move b c m = true) :
    ∃ b', do_flip (upd b m.1.toNat m.2.toNat (some c)) c m = some b' ∧
      apply_move b c m = b' ∧
      cellAt b' m = some c ∧
      (∀ d ∈ directions, ∀ k, flipRun b m c d k →
        ∀ i, 1 ≤ i → i ≤ k → cellAt b' (ray m d i) = some c) ∧
      (∀ x y : Nat, ¬(x = m.1.toNat ∧ y = m.2.toNat) →
        (∀ d ∈ directions, ∀ k, flipRun b m c d k →
          ∀ i, 1 ≤ i → i ≤ k → pt (ray m d i) ≠ (x, y)) →
        b' x y = b x y) :=
  apply_move_spec b c m hv

/-- Witness for C3 at the concrete legal opening move `e3 = (2,4)`. -/
theorem C3_witness :
    valid_move initial_board Color.BLACK ((2 : Int), (4 : Int)) = true ∧
    (∃ b', do_flip (upd initial_board 2 4 (some Color.BLACK)) Color.BLACK
        ((2 : Int), (4 : Int)) = some b' ∧
      apply_move initial_board Color.BLACK ((2 : Int), (4 : Int)) = b' ∧
      cellAt b' ((2 : Int), (4 : Int)) = some Color.BLACK ∧
      (∀ d ∈ directions, ∀ k, flipRun initial_board ((2 : Int), (4 : Int)) Color.BLACK d k →
        ∀ i, 1 ≤ i → i ≤ k →
          cellAt b' (ray ((2 : Int), (4 : Int)) d i) = some Color.BLACK) ∧
      (∀ x y : Nat, ¬(x = 2 ∧ y = 4) →
        (∀ d ∈ directions, ∀ k, flipRun initial_board ((2 : Int), (4 : Int)) Color.BLACK d k →
          ∀ i, 1 ≤ i → i ≤ k → pt (ray ((2 : Int), (4 : Int)) d i) ≠ (x, y)) →
        b' x y = initial_board x y)) :=
  ⟨by decide, C3_apply_move_spec initial_board Color.BLACK ((2 : Int), (4 : Int)) (by decide)⟩

/-- C7: `parse_coordinate` succeeds exactly on two-character strings whose
first character lowercases into `a`–`h` and whose second character is a
digit `1`–`8`; in particular `"i1"`, `"a9"`, `"a"` and `"abc"` all raise
`CoordinateParseError`, while `"H8"` parses to `(7,7)`, the same result as
`"h8"`. -/
theorem C7_parse_coordinate :
    (∀ s : List Char,
      (∃ v, parse_coordinate s = .ok v) ↔
        (∃ c0 c1, s = [c0, c1] ∧
          ('a'.toNat ≤ lowerOrd c0.toNat ∧ lowerOrd c0.toNat ≤ 'h'.toNat) ∧
          ('1'.toNat ≤ c1.toNat ∧ c1.toNat ≤ '8'.toNat))) ∧
    (∃ e1, parse_coordinate ['i', '1'] = .error e1) ∧
    (∃ e2, parse_coordinate ['a', '9'] = .error e2) ∧
    (∃ e3, parse_coordinate ['a'] = .error e3) ∧
    (∃ e4, parse_coordinate ['a', 'b', 'c'] = .error e4) ∧
    parse_coordinate ['H', '8'] = .ok ((7 : Int), (7 : Int)) ∧
    parse_coordinate ['H', '8'] = parse_coordinate ['h', '8'] := by
  refine ⟨?_, ⟨_, rfl⟩, ⟨_, rfl⟩, ⟨_, rfl⟩, ⟨_, rfl⟩, rfl, rfl⟩
  intro s
  match s with
  | [] => simp [parse_coordinate]
  | [c0] => simp [parse_coordinate]
  | c0 :: c1 :: c2 :: rest => simp [parse_coordinate]
  | [c0, c1] =>
    simp only [parse_coordinate]
    by_cases hrow : 0 ≤ ((lowerOrd c1.toNat : Int) - 49) ∧ ((lowerOrd c1.toNat : Int) - 49) < 8
    · rw [if_neg (not_not_intro hrow)]
      by_cases hcol : 0 ≤ ((lowerOrd c0.toNat : Int) - 97) ∧ ((lowerOrd c0.toNat : Int) - 97) < 8
      · rw [if_neg (not_not_intro hcol)]
        constructor
        · intro _
          refine ⟨c0, c1, rfl, ?_, ?_⟩
          · show 97 ≤ lowerOrd c0.toNat ∧ lowerOrd c0.toNat ≤ 104
            omega
          · show 49 ≤ c1.toNat ∧ c1.toNat ≤ 56
            rw [← lowerOrd_digit]
            omega
        · intro _
          exact ⟨_, rfl⟩
      · rw [if_pos hcol]
        constructor
        · rintro ⟨v, hv⟩
          simp at hv
        · rintro ⟨c0', c1', heq, hc0, _⟩
          simp only [List.cons.injEq, and_true] at heq
          obtain ⟨rfl, rfl, _⟩ := heq
          have : 97 ≤ lowerOrd c0.toNat ∧ lowerOrd c0.toNat ≤ 104 := hc0
          omega
    · rw [if_pos hrow]
      constructor
      · rintro ⟨v, hv⟩
        simp at hv
      · rintro ⟨c0', c1', heq, _, hc1⟩
        simp only [List.cons.injEq, and_true] at heq
        obtain ⟨rfl, rfl, _⟩ := heq
        have hd : 49 ≤ c1.toNat ∧ c1.toNat ≤ 56 := hc1
        rw [← lowerOrd_digit] at hd
        omega

/-- C4: in every reachable state of `play_game`, the number of occupied
cells equals 4 (the initial discs) plus the number of successfully applied
moves and never exceeds 64; each applied move adds exactly one disc (flips
recolor discs without changing the count). -/
theorem C4_disc_count :
    (∀ s, Reachable s →
      black_count s.board + white_count s.board = 4 + s.moves ∧
      black_count s.board + white_count s.board ≤ 64) ∧
    (∀ s e, Reachable s → (step s e).moves = s.moves + 1 →
      black_count (step s e).board + white_count (step s e).board
        = (black_count s.board + white_count s.board) + 1) := by
  constructor
  · intro s hs
    exact ⟨reach_total s hs, total_le_64 s.board⟩
  · intro s e hs hmv
    have h1 := reach_total s hs
    have h2 := reach_total (step s e) (Reachable.next s e hs)
    rw [hmv] at h2
    omega

/-- Witness for C4 at the initial state. -/
theorem C4_witness :
    Reachable initState ∧
    (black_count initState.board + white_count initState.board = 4 + initState.moves ∧
      black_count initState.board + white_count initState.board ≤ 64) :=
  ⟨Reachable.init, C4_disc_count.1 initState Reachable.init⟩

/-- C5: in a live reachable state, a no-valid-move turn increments the
skip counter by exactly 1 (passing the turn, leaving the board alone), the
counter is 0 after any successfully applied move, and — input exhaustion
aside — the loop terminates exactly when the incremented counter reaches
2; the board being full is never a separate termination trigger. -/
theorem C5_skip_protocol (s : GState) (e : Ev) (hreach : Reachable s)
    (hdone : s.done = false) :
    (no_valid_moves s.board s.turn = true →
      (step s e).skip = s.skip + 1 ∧ (step s e).turn = s.turn.opposite ∧
      (step s e).board = s.board) ∧
    ((step s e).moves = s.moves + 1 → (step s e).skip = 0) ∧
    (e ≠ Ev.stop →
      ((step s e).done = true ↔
        no_valid_moves s.board s.turn = true ∧ (step s e).skip = 2)) := by
  have hskip := reach_skip_le s hreach hdone
  by_cases hnv : no_valid_moves s.board s.turn = true
  · rw [step_skip_branch s e hdone hnv]
    refine ⟨fun _ => ⟨rfl, rfl, rfl⟩, ?_, ?_⟩
    · intro hmv
      have hmv' : s.moves = s.moves + 1 := hmv
      omega
    · intro _
      constructor
      · intro h
        have h2 : decide (2 ≤ s.skip + 1) = true := h
        rw [decide_eq_true_iff] at h2
        refine ⟨hnv, ?_⟩
        show s.skip + 1 = 2
        omega
      · rintro ⟨_, h2⟩
        have h2' : s.skip + 1 = 2 := h2
        show decide (2 ≤ s.skip + 1) = true
        exact decide_eq_true (by omega)
  · have hnv0 : no_valid_moves s.board s.turn = false := Bool.eq_false_iff.2 hnv
    have hboth : ((step s e).moves = s.moves + 1 → (step s e).skip = 0) ∧
        (e ≠ Ev.stop → (step s e).done = false) := by
      cases e with
      | stop =>
        rw [step_stop s hdone hnv0]
        refine ⟨?_, fun hne => absurd rfl hne⟩
        intro hmv
        have hmv' : s.moves = s.moves + 1 := hmv
        omega
      | line str =>
        rcases hp : parse_coordinate (rstrip str) with err | mv
        · rw [step_parse_error s str err hdone hnv0 hp]
          refine ⟨?_, fun _ => hdone⟩
          intro hmv
          have hmv' : s.moves = s.moves + 1 := hmv
          omega
        · by_cases hvm : valid_move s.board s.turn mv = true
          · rw [step_valid s str mv hdone hnv0 hp hvm]
            exact ⟨fun _ => rfl, fun _ => hdone⟩
          · rw [step_invalid s str mv hdone hnv0 hp (Bool.eq_false_iff.2 hvm)]
            refine ⟨?_, fun _ => hdone⟩
            intro hmv
            have hmv' : s.moves = s.moves + 1 := hmv
            omega
    refine ⟨fun h => absurd h hnv, hboth.1, fun hne => ?_⟩
    constructor
    · intro h
      rw [hboth.2 hne] at h
      exact absurd h (by simp)
    · rintro ⟨h1, _⟩
      exact absurd h1 hnv

/-- Witness for C5 at the initial state. -/
theorem C5_witness :
    Reachable initState ∧ initState.done = false ∧
    ((no_valid_moves initState.board initState.turn = true →
        (step initState Ev.stop).skip = initState.skip + 1 ∧
        (step initState Ev.stop).turn = initState.turn.opposite ∧
        (step initState Ev.stop).board = initState.board) ∧
      ((step initState Ev.stop).moves = initState.moves + 1 →
        (step initState Ev.stop).skip = 0) ∧
      (Ev.stop ≠ Ev.stop →
        ((step initState Ev.stop).done = true ↔
          no_valid_moves initState.board initState.turn = true ∧
          (step initState Ev.stop).skip = 2))) :=
  ⟨Reachable.init, rfl, C5_skip_protocol initState Ev.stop Reachable.init rfl⟩

/-- C6: when the game terminates via the second consecutive skip, the loop
records the winner string computed from the disc counts: `"Black wins!"`
iff Black holds strictly more discs, `"White wins!"` iff White does, and
`"It's a tie!"` iff the counts are equal. -/
theorem C6_winner_message (s : GState) (e : Ev) (hdone : s.done = false)
    (hnv : no_valid_moves s.board s.turn = true) (hskip : 1 ≤ s.skip) :
    (step s e).done = true ∧
    (step s e).result = some (count_tokens_and_determine_winner s.board) ∧
    (count_tokens_and_determine_winner s.board = "Black wins!" ↔
      white_count s.board < black_count s.board) ∧
    (count_tokens_and_determine_winner s.board = "White wins!" ↔
      black_count s.board < white_count s.board) ∧
    (count_tokens_and_determine_winner s.board = "It's a tie!" ↔
      black_count s.board = white_count s.board) := by
  rw [step_skip_branch s e hdone hnv]
  refine ⟨?_, ?_, (winner_trichotomy s.board).1, (winner_trichotomy s.board).2.1,
    (winner_trichotomy s.board).2.2⟩
  · show decide (2 ≤ s.skip + 1) = true
    exact decide_eq_true (by omega)
  · show (if 2 ≤ s.skip + 1 then some (count_tokens_and_determine_winner s.board)
      else s.result) = some (count_tokens_and_determine_winner s.board)
    rw [if_pos (by omega)]

/-- Witness for C6 at a full all-black board with White to move after one
skip. -/
theorem C6_witness :
    nearEndState.done = false ∧
    no_valid_moves nearEndState.board nearEndState.turn = true ∧
    1 ≤ nearEndState.skip ∧
    ((step nearEndState Ev.stop).done = true ∧
      (step nearEndState Ev.stop).result =
        some (count_tokens_and_determine_winner nearEndState.board) ∧
      (count_tokens_and_determine_winner nearEndState.board = "Black wins!" ↔
        white_count nearEndState.board < black_count nearEndState.board) ∧
      (count_tokens_and_determine_winner nearEndState.board = "White wins!" ↔
        black_count nearEndState.board < white_count nearEndState.board) ∧
      (count_tokens_and_determine_winner nearEndState.board = "It's a tie!" ↔
        black_count nearEndState.board = white_count nearEndState.board)) :=
  ⟨rfl, by decide, by decide,
    C6_winner_message nearEndState Ev.stop rfl (by decide) (by decide)⟩

/-- C8: rejected input never changes the board: on a parse error or on a
move rejected by `valid_move`, the loop iteration leaves the board, the
turn and the liveness of the loop unchanged (re-prompting the same
player), and `valid_move` itself is a pure function of its arguments. -/
theorem C8_rejection_preserves_board (s : GState) (str : List Char)
    (hdone : s.done = false) (hnv : no_valid_moves s.board s.turn = false)
    (hrej : (∃ err, parse_coordinate (rstrip str) = .error err) ∨
      (∃ mv, parse_coordinate (rstrip str) = .ok mv ∧
        valid_move s.board s.turn mv = false)) :
    (step s (Ev.line str)).board = s.board ∧
    (step s (Ev.line str)).turn = s.turn ∧
    (step s (Ev.line str)).done = false ∧
    (step s (Ev.line str)).moves = s.moves ∧
    (∀ b c mv, valid_move b c mv = valid_move b c mv) := by
  rcases hrej with ⟨err, hp⟩ | ⟨mv, hp, hvm⟩
  · rw [step_parse_error s str err hdone hnv hp]
    exact ⟨rfl, rfl, hdone, rfl, fun _ _ _ => rfl⟩
  · rw [step_invalid s str mv hdone hnv hp hvm]
    exact ⟨rfl, rfl, hdone, rfl, fun _ _ _ => rfl⟩

/-- Witness for C8: the malformed input `"z9"` at the initial state. -/
theorem C8_witness :
    initState.done = false ∧
    no_valid_moves initState.board initState.turn = false ∧
    parse_coordinate (rstrip ['z', '9']) = .error ⟨"Row out of bounds"⟩ ∧
    ((step initState (Ev.line ['z', '9'])).board = initState.board ∧
      (step initState (Ev.line ['z', '9'])).turn = initState.turn ∧
      (step initState (Ev.line ['z', '9'])).done = false ∧
      (step initState (Ev.line ['z', '9'])).moves = initState.moves ∧
      (∀ b c mv, valid_move b c mv = valid_move b c mv)) :=
  ⟨rfl, by decide, rfl,
    C8_rejection_preserves_board initState ['z', '9'] rfl (by decide)
      (Or.inl ⟨⟨"Row out of bounds"⟩, rfl⟩)⟩

/-- C9: whenever `is_flippable_line` holds for one of the 8 directions, the
unguarded `while` loop of `flip_line` terminates after at most 7 writes,
stops exactly at the first cell of the mover's color, and every
`board[row][col]` access it makes has both indices in `[0,7]` (success of
the strict variant), so it neither raises `IndexError` nor wraps around. -/
theorem C9_flip_line_safe (b : Board) (c : Color) (m d : Int × Int)
    (hd : d ∈ directions) (hflip : is_flippable_line b m c d false = true) :
    ∃ k, 1 ≤ k ∧ k ≤ 7 ∧ flipRun b m c d k ∧
      flip_line_strictF c d (k + 1) b m = some (writeRay c d k b m) ∧
      flip_line b m c d = some (writeRay c d k b m) := by
  obtain ⟨k, hk⟩ := (is_flippable_line_iff hd).1 hflip
  refine ⟨k, hk.1, runAux_k_le hd hk.2, hk, ?_, ?_⟩
  · exact flip_line_strictF_spec hd k b m (k + 1) le_rfl hk.2
  · exact flip_line_spec hd hk.2

/-- Witness for C9: flipping downward from `e3` on the initial board. -/
theorem C9_witness :
    ((1, 0) : Int × Int) ∈ directions ∧
    is_flippable_line initial_board ((2 : Int), (4 : Int)) Color.BLACK (1, 0) false = true ∧
    (∃ k, 1 ≤ k ∧ k ≤ 7 ∧
      flipRun initial_board ((2 : Int), (4 : Int)) Color.BLACK (1, 0) k ∧
      flip_line_strictF Color.BLACK (1, 0) (k + 1) initial_board ((2 : Int), (4 : Int)) =
        some (writeRay Color.BLACK (1, 0) k initial_board ((2 : Int), (4 : Int))) ∧
      flip_line initial_board ((2 : Int), (4 : Int)) Color.BLACK (1, 0) =
        some (writeRay Color.BLACK (1, 0) k initial_board ((2 : Int), (4 : Int)))) :=
  ⟨by decide, by decide,
    C9_flip_line_safe initial_board Color.BLACK ((2 : Int), (4 : Int)) (1, 0)
      (by decide) (by decide)⟩

/-- C10: the `find_adjacent` pre-check of `valid_move` is redundant —
deleting it never changes the result, because whenever some direction
carries a flippable line, `find_adjacent` already returns true; this holds
even though `find_adjacent` resolves negative indices by wrapping to the
opposite edge of the board instead of raising `IndexError`. -/
theorem C10_adjacency_redundant :
    (∀ b c m, valid_move b c m = valid_move_noadj b c m) ∧
    (∀ b c m d, d ∈ directions → is_flippable_line b m c d false = true →
      find_adjacent b m c = true) :=
  ⟨valid_move_eq_noadj, flippable_find_adjacent⟩

/-- Witness for C10: the flippable downward line from `e3` on the initial
board is seen by `find_adjacent`. -/
theorem C10_witness :
    ((1, 0) : Int × Int) ∈ directions ∧
    is_flippable_line initial_board ((2 : Int), (4 : Int)) Color.BLACK (1, 0) false = true ∧
    find_adjacent initial_board ((2 : Int), (4 : Int)) Color.BLACK = true :=
  ⟨by decide, by decide,
    C10_adjacency_redundant.2 initial_board Color.BLACK ((2 : Int), (4 : Int)) (1, 0)
      (by decide) (by decide)⟩

end Othello
